import Mathlib

/-!
Verification development for the version-creator dialog of the `anima`
pipeline (file `anima/pipeline/ui/version_creator.py`).

The two pieces of logic under study are

* the take-name conditioning performed inline in
  `MainDialog.add_take_toolButton_clicked` (Python `str.title` followed by
  four `re.sub` passes, then duplicate suppression against the take list),
  and
* the version listing / selection-restoration logic spread over
  `update_previous_versions_tableWidget`, `takes_listWidget_changed`,
  `tasks_treeWidget_changed`, `restore_ui`, `set_status` and
  `get_previous_version`.

Strings are embedded as lists of Unicode code points (`List Nat`); the
character classes (`str.title` casing, `\s`, `[^a-zA-Z0-9_]`) are modelled
on the ASCII range, which is where the Python regexes and the take names
used by the dialog live.  Widget state is embedded as explicit record
state; Qt signal emissions (`setCurrentItem` triggering the connected
slot) are modelled as the direct synchronous calls the source performs.
Python exceptions are modelled with `Except`.
-/

/-- Code point of the underscore character. -/
def underscoreCode : Nat := 95

/-- A cased character in the ASCII range: an ASCII letter.  Python
`str.title` upper/lowercases a character depending on whether the previous
character is cased. -/
def isCasedCode (c : Nat) : Bool :=
  (65 ≤ c && c ≤ 90) || (97 ≤ c && c ≤ 122)

/-- ASCII uppercasing, as Python `str.upper` acts on ASCII letters. -/
def toUpperCode (c : Nat) : Nat :=
  if 97 ≤ c && c ≤ 122 then c - 32 else c

/-- ASCII lowercasing, as Python `str.lower` acts on ASCII letters. -/
def toLowerCode (c : Nat) : Nat :=
  if 65 ≤ c && c ≤ 90 then c + 32 else c

/-- One step of Python `str.title`: a cased character is uppercased when the
previous character was not cased and lowercased otherwise; uncased
characters pass through. -/
def titleChar (prevCased : Bool) (c : Nat) : Nat :=
  if isCasedCode c then (if prevCased then toLowerCode c else toUpperCode c) else c

/-- Python `str.title` over a list of code points, tracking whether the
previous character of the ORIGINAL string was cased. -/
def pyTitleAux (prevCased : Bool) : List Nat → List Nat
  | [] => []
  | c :: rest => titleChar prevCased c :: pyTitleAux (isCasedCode c) rest

/-- Python `take_name.title()` (step 1 of the conditioning). -/
def pyTitle (l : List Nat) : List Nat := pyTitleAux false l

/-- The character class `[\s\-]` of the regex in
`add_take_toolButton_clicked`: ASCII whitespace (Python `\s`: space, tab,
newline, carriage return, vertical tab, form feed) or a hyphen. -/
def isSpaceHyphenCode (c : Nat) : Bool :=
  c == 32 || c == 9 || c == 10 || c == 13 || c == 11 || c == 12 || c == 45

/-- Replaces every maximal run of characters satisfying `p` with the single
character `r`; the flag records whether we are inside such a run.  This is
`re.sub(p+, r, s)` for a character class `p`. -/
def replaceRunsAux (p : Nat → Bool) (r : Nat) : Bool → List Nat → List Nat
  | _, [] => []
  | inRun, c :: rest =>
    if p c then
      (if inRun then replaceRunsAux p r true rest
       else r :: replaceRunsAux p r true rest)
    else c :: replaceRunsAux p r false rest

/-- Step 2 of the conditioning: `re.sub(r'[\s\-]+', '_', take_name)`. -/
def subSpaceHyphen (l : List Nat) : List Nat :=
  replaceRunsAux isSpaceHyphenCode underscoreCode false l

/-- The character class `[a-zA-Z0-9_]` (the complement of the class removed
by step 3 of the conditioning). -/
def isWordCode (c : Nat) : Bool :=
  (65 ≤ c && c ≤ 90) || (97 ≤ c && c ≤ 122) || (48 ≤ c && c ≤ 57) || c == 95

/-- Step 3 of the conditioning: `re.sub(r'[^a-zA-Z0-9_]+', '', take_name)`,
i.e. removal of every non-word character. -/
def removeNonWord (l : List Nat) : List Nat := l.filter isWordCode

/-- Step 4 of the conditioning: `re.sub(r'[_]+', '_', take_name)`,
collapsing every maximal underscore run to a single underscore. -/
def collapseUnderscores (l : List Nat) : List Nat :=
  replaceRunsAux (fun c => c == underscoreCode) underscoreCode false l

/-- Step 5 of the conditioning: `re.sub(r'[_]+$', '', take_name)`, removal
of the trailing underscore run. -/
def stripTrailingUnderscores : List Nat → List Nat
  | [] => []
  | c :: rest =>
    let r := stripTrailingUnderscores rest
    if c == underscoreCode && r.isEmpty then [] else c :: r

/-- The complete take-name conditioning of
`add_take_toolButton_clicked` (source lines 1244-1249): title-casing
followed by the four `re.sub` passes, in source order. -/
def normalizeTakeName (l : List Nat) : List Nat :=
  stripTrailingUnderscores
    (collapseUnderscores (removeNonWord (subSpaceHyphen (pyTitle l))))

/-- Convenience: a Lean string literal as a list of code points. -/
def strToCodes (s : String) : List Nat := s.toList.map Char.toNat

/-- Lexicographic comparison of code-point lists, as Qt
`QListWidget.sortItems` orders item texts (`QString` operator `<`,
locale-independent, by code unit; identical to code-point order for the
ASCII take names at hand). -/
def lexLeB : List Nat → List Nat → Bool
  | [], _ => true
  | _ :: _, [] => false
  | a :: as, b :: bs => if a < b then true else if b < a then false else lexLeB as bs

/-- The ordering relation used for `sortItems`. -/
def lexLe (a b : List Nat) : Prop := lexLeB a b = true

instance : DecidableRel lexLe := fun a b => by
  unfold lexLe
  infer_instance

/-- Index of the first exact match of `a` in `l`, as Qt
`findItems(text, MatchExactly)` followed by taking element `0` locates an
item row. -/
def idxOf? {α : Type} [DecidableEq α] (a : α) : List α → Option Nat
  | [] => none
  | b :: l => if b = a then some 0 else (idxOf? a l).map (· + 1)

/-- State of the `takes_listWidget`: its item texts in widget order and the
index of the current item (none when no item is current). -/
structure TakesState where
  takes : List (List Nat)
  current : Option Nat
deriving DecidableEq, Repr

/-- The body of `add_take_toolButton_clicked` (source lines 1238-1266)
after the input dialog returned `ok` with text `raw`: if the raw text is
non-empty it is conditioned, the take list is scanned for an exact
duplicate, and only when absent the conditioned name is added, the list is
sorted and the matching item becomes current. -/
def add_take_toolButton_clicked (raw : List Nat) (s : TakesState) : TakesState :=
  if raw = [] then s
  else
    let take_name := normalizeTakeName raw
    let in_list := take_name ∈ s.takes
    if in_list then s
    else
      let takes' := List.insertionSort lexLe (s.takes ++ [take_name])
      match idxOf? take_name takes' with
      | some i => ⟨takes', some i⟩
      | none => ⟨takes', s.current⟩

/-- A workflow status, as far as this dialog reads it: `set_status` matches
on `status.name` in the statuses combo box. -/
structure Status where
  name : List Nat
deriving DecidableEq, Repr

/-- A project, as far as `restore_ui` reads it: only the `active` flag is
consulted. -/
structure Project where
  projId : Nat
  active : Bool
deriving DecidableEq, Repr

/-- A task (stalker `Task`; the name `Task` itself is taken by Lean core):
identity plus its owning project, which is what
`find_entity_item_in_tree_widget` (entity equality) and `restore_ui`
(`version.task.project.active`) consume. -/
structure PTask where
  taskId : Nat
  project : Project
deriving DecidableEq, Repr

/-- A persisted Version row, with the attributes this dialog's listing and
restoration logic reads. -/
structure Version where
  verId : Nat
  task : PTask
  take_name : List Nat
  version_number : Nat
  is_published : Bool
  status : Status
deriving DecidableEq, Repr

/-- The ORM ordering `order_by(Version.version_number.desc())`. -/
def verDesc (a b : Version) : Prop := b.version_number ≤ a.version_number

instance : DecidableRel verDesc := fun a b => by
  unfold verDesc
  infer_instance

instance : IsTotal Version verDesc :=
  ⟨fun a b => by unfold verDesc; omega⟩

instance : IsTrans Version verDesc :=
  ⟨fun a b c hab hbc => by unfold verDesc at *; omega⟩

/-- The chained query
`Version.query.filter(Version.task == task).filter(Version.take_name == take_name)`
over the database contents. -/
def taskTakeQuery (db : List Version) (task : PTask) (take : List Nat) : List Version :=
  (db.filter (fun v => decide (v.task = task))).filter
    (fun v => decide (v.take_name = take))

/-- The version listing of `update_previous_versions_tableWidget` (source
lines 1019-1033): the task/take query, optionally restricted to published
versions, ordered by version number descending, capped by
`version_count_spinBox`, then reversed in place. -/
def listVersions (db : List Version) (task : PTask) (take : List Nat)
    (published_only : Bool) (limit : Nat) : List Version :=
  let query := taskTakeQuery db task take
  let query2 := if published_only then query.filter (fun v => v.is_published) else query
  (((List.insertionSort verDesc query2).take limit)).reverse

/-- Reference derivation following the words of spec section 4.2: fetch all
versions of the pair in one conjunctive filter, restrict to
`is_published == true` when `published_only`, order by version number
descending, take the first `limit`, and reverse so display order is
ascending.  Stated from the spec, to be compared with `listVersions`. -/
def listVersionsSpec (db : List Version) (task : PTask) (take : List Nat)
    (published_only : Bool) (limit : Nat) : List Version :=
  let fetched := db.filter (fun v => decide (v.task = task ∧ v.take_name = take))
  let filtered :=
    if published_only then fetched.filter (fun v => v.is_published == true) else fetched
  ((List.insertionSort verDesc filtered).take limit).reverse

/-- The default take name, `defaults.version_take_name` ("Main" in the
stalker defaults this dialog runs with). -/
def defaultTakeName : List Nat := strToCodes "Main"

/-- The slice of `MainDialog` widget state that the listing and
restoration logic reads and writes. -/
structure DialogState where
  db : List Version
  tasksTree : List PTask
  currentTask : Option PTask
  takesList : List (List Nat)
  currentTakeIndex : Option Nat
  versionsCache : List Version
  currentVersionRow : Option Nat
  statusesCombo : List (List Nat)
  statusIndex : Option Nat
  publishedOnly : Bool
  versionCount : Nat
deriving DecidableEq, Repr

/-- The text of the current item of the `takes_listWidget`, empty when no
item is current (`item = currentItem(); if item: take_name = item.text()`). -/
def currentTakeNameD (s : DialogState) : List Nat :=
  match s.currentTakeIndex with
  | none => []
  | some i => (s.takesList.get? i).getD []

/-- Model of `set_status` (source lines 968-977): find the status name in the
statuses combo box by exact match and make it current; on no match the
combo is left unchanged. -/
def set_status (s : DialogState) (status : Status) : DialogState :=
  match idxOf? status.name s.statusesCombo with
  | some i => { s with statusIndex := some i }
  | none => s

/-- The status name currently shown by the statuses combo box. -/
def shownStatusName (s : DialogState) : Option (List Nat) :=
  match s.statusIndex with
  | none => none
  | some i => s.statusesCombo.get? i

/-- Model of `update_previous_versions_tableWidget` (source lines 991-1200): clear
the table (which deselects any row and empties the cache), bail out when no
task is current or the current take text is empty, otherwise rebuild the
cache with `listVersions` and, when non-empty, push the status of its last
(highest-numbered) element into the statuses combo box.  The task, take
text, database and settings are read from `s` directly: the table clear
touches none of the widgets these reads go through. -/
def update_previous_versions_tableWidget (s : DialogState) : DialogState :=
  let cleared := { s with versionsCache := [], currentVersionRow := none }
  match s.currentTask with
  | none => cleared
  | some task =>
    let take_name := currentTakeNameD s
    if take_name = [] then cleared
    else
      let versions := listVersions s.db task take_name s.publishedOnly s.versionCount
      let s1 := { cleared with versionsCache := versions }
      match versions.getLast? with
      | some v => set_status s1 v.status
      | none => s1

/-- Model of `takes_listWidget_changed` (source lines 941-966): rebuild the table,
then re-query ALL versions of the current (task, take) pair — with no
published filter and no cap — and push the status of the
highest-version-number one (the `first()` of the descending query) into the
statuses combo box.  The take text, task and database are read from `s`
directly: the table rebuild does not modify the widgets they come from. -/
def takes_listWidget_changed (s : DialogState) : DialogState :=
  let s1 := update_previous_versions_tableWidget s
  match s.currentTask with
  | none => s1
  | some task =>
    match (List.insertionSort verDesc
        (taskTakeQuery s.db task (currentTakeNameD s))).head? with
    | some v => set_status s1 v.status
    | none => s1

/-- The take list rebuilt by `tasks_treeWidget_changed` for a task: the
distinct take names of its versions, with the default take name appended
when absent. -/
def rebuiltTakes (db : List Version) (task : PTask) : List (List Nat) :=
  let takes := ((db.filter (fun v => decide (v.task = task))).map
    (fun v => v.take_name)).dedup
  if defaultTakeName ∈ takes then takes else takes ++ [defaultTakeName]

/-- Model of `tasks_treeWidget_changed` (source lines 718-765) for a current item
carrying a Task entity: clear and refill the `takes_listWidget` with the
distinct take names from the database (plus the default take), then make
item 0 current, which synchronously triggers `takes_listWidget_changed`. -/
def tasks_treeWidget_changed (s : DialogState) : DialogState :=
  match s.currentTask with
  | none => s
  | some task =>
    let s1 := { s with takesList := rebuiltTakes s.db task, currentTakeIndex := some 0 }
    takes_listWidget_changed s1

/-- Model of `restore_ui` (source lines 891-939).  A `none` reference or one whose
task's project is inactive returns immediately; a task absent from the tree
returns immediately; otherwise the task item is made current (triggering
the take-list rebuild cascade), then `findItems(take_name, MatchExactly)`
is indexed at 0 — an uncaught `IndexError` when the take is absent — and
made current (triggering the table rebuild), and finally the cache is
scanned for an element equal to the reference, whose row is selected when
found. -/
def restore_ui (s : DialogState) (version : Option Version) : Except String DialogState :=
  match version with
  | none => Except.ok s
  | some v =>
    if !v.task.project.active then Except.ok s
    else
      match s.tasksTree.find? (fun t => decide (t = v.task)) with
      | none => Except.ok s
      | some _ =>
        let s2 := tasks_treeWidget_changed { s with currentTask := some v.task }
        match idxOf? v.take_name s2.takesList with
        | none => Except.error "IndexError: list index out of range"
        | some i =>
          let s3 := takes_listWidget_changed { s2 with currentTakeIndex := some i }
          match idxOf? v s3.versionsCache with
          | none => Except.ok s3
          | some j => Except.ok { s3 with currentVersionRow := some j }

/-- Python list subscripting `l[i]` wrapped in `try ... except IndexError`:
a negative index counts from the end; any out-of-range access gives
`none`. -/
def pyListGet? (l : List Version) (i : Int) : Option Version :=
  if 0 ≤ i then l.get? i.toNat
  else if 0 ≤ i + l.length then l.get? (i + l.length).toNat
  else none

/-- Model of `get_previous_version` (source lines 1303-1312): subscript the cached
version list with the current row of the table (Qt reports `-1` when no
row is current) and turn `IndexError` into `None`. -/
def get_previous_version (cache : List Version) (currentRow : Int) : Option Version :=
  pyListGet? cache currentRow

/-- Whether a code-point list contains two consecutive underscores. -/
def hasDouble : List Nat → Bool
  | a :: b :: rest => (a == underscoreCode && b == underscoreCode) || hasDouble (b :: rest)
  | _ => false

/-- The underscore-run collapser with an explicit in-run flag. -/
def collapseAux (b : Bool) (l : List Nat) : List Nat :=
  replaceRunsAux (fun c => c == underscoreCode) underscoreCode b l

/-- Fixture: a status named "StatusA". -/
def stA : Status := ⟨strToCodes "StatusA"⟩

/-- Fixture: a status named "StatusB". -/
def stB : Status := ⟨strToCodes "StatusB"⟩

/-- Fixture: an active project. -/
def projA : Project := ⟨1, true⟩

/-- Fixture: an inactive project. -/
def projInactive : Project := ⟨2, false⟩

/-- Fixture: a task of the active project. -/
def tk1 : PTask := ⟨1, projA⟩

/-- Fixture: a task of the inactive project. -/
def tkInactive : PTask := ⟨2, projInactive⟩

/-- The take name "Main" as codes. -/
def mainName : List Nat := strToCodes "Main"

/-- The take name "Alt" as codes. -/
def altName : List Nat := strToCodes "Alt"

/-- Fixture: the i-th published version of task `tk1`, take "Main". -/
def exV (i : Nat) : Version := ⟨i, tk1, mainName, i, true, stA⟩

/-- Fixture database: versions numbered 1..5 of (tk1, "Main"). -/
def exDb : List Version := [exV 1, exV 2, exV 3, exV 4, exV 5]

/-- Fixture: version number 1, published, status "StatusA". -/
def c2v1 : Version := ⟨11, tk1, mainName, 1, true, stA⟩

/-- Fixture: version number 2, UNpublished, status "StatusB". -/
def c2v2 : Version := ⟨12, tk1, mainName, 2, false, stB⟩

/-- Fixture dialog state: published-only listing over `[c2v1, c2v2]` with
task `tk1` and take "Main" current. -/
def c2s : DialogState :=
  ⟨[c2v1, c2v2], [tk1], some tk1, [mainName], some 0, [], none,
   [stA.name, stB.name], none, true, 5⟩

/-- Fixture: a version of (tk1, "Alt") that is NOT in the database. -/
def c3v : Version := ⟨21, tk1, altName, 1, false, stA⟩

/-- Fixture dialog state with an empty database and task `tk1` in the
tree. -/
def c3s : DialogState :=
  ⟨[], [tk1], none, [mainName], some 0, [], none, [stA.name], none, false, 5⟩

/-- Fixture: a version owned by a task of the inactive project. -/
def vInactive : Version := ⟨31, tkInactive, mainName, 1, true, stA⟩

/-- Fixture dialog state: database `exDb`, task `tk1` in the tree, listing
capped at 3 versions. -/
def c8s : DialogState :=
  ⟨exDb, [tk1], none, [], none, [], none, [stA.name], none, false, 3⟩

theorem collapseUnderscores_eq_aux (l : List Nat) :
    collapseUnderscores l = collapseAux false l := rfl

theorem hasDouble_cons (a : Nat) (l : List Nat) :
    hasDouble (a :: l) =
      ((a == underscoreCode && l.head?.getD 0 == underscoreCode) || hasDouble l) := by
  cases l <;> simp [hasDouble, underscoreCode]

theorem collapseAux_nil (b : Bool) : collapseAux b [] = [] := rfl

theorem collapseAux_cons (b : Bool) (c : Nat) (rest : List Nat) :
    collapseAux b (c :: rest) =
      (if c == underscoreCode then
        (if b then collapseAux true rest else underscoreCode :: collapseAux true rest)
       else c :: collapseAux false rest) := rfl

theorem head_collapseAux_true (l : List Nat) :
    ((collapseAux true l).head?.getD 0 == underscoreCode) = false := by
  induction l with
  | nil => rfl
  | cons c rest ih =>
    rw [collapseAux_cons]
    by_cases hc : (c == underscoreCode) = true
    · simp only [hc, if_pos, if_true]
      exact ih
    · simp only [Bool.not_eq_true] at hc
      simp [hc]

theorem hasDouble_collapseAux (l : List Nat) :
    ∀ b : Bool, hasDouble (collapseAux b l) = false := by
  induction l with
  | nil => intro b; rfl
  | cons c rest ih =>
    intro b
    rw [collapseAux_cons]
    by_cases hc : (c == underscoreCode) = true
    · cases b with
      | true => simp only [hc, if_true]; exact ih true
      | false =>
        simp only [hc, if_true, if_false, Bool.false_eq_true]
        rw [hasDouble_cons, head_collapseAux_true, ih true]
        simp
    · simp only [Bool.not_eq_true] at hc
      simp only [hc, Bool.false_eq_true, if_false]
      rw [hasDouble_cons, ih false, hc]
      simp

theorem mem_collapseAux {x : Nat} {l : List Nat} :
    ∀ b : Bool, x ∈ collapseAux b l → x ∈ l ∨ x = underscoreCode := by
  induction l with
  | nil => intro b h; cases h
  | cons c rest ih =>
    intro b h
    rw [collapseAux_cons] at h
    by_cases hc : (c == underscoreCode) = true
    · simp only [hc, if_true] at h
      cases b with
      | true =>
        rcases ih true h with h' | h'
        · exact Or.inl (List.mem_cons_of_mem c h')
        · exact Or.inr h'
      | false =>
        simp only [Bool.false_eq_true, if_false] at h
        rcases List.mem_cons.mp h with h' | h'
        · exact Or.inr h'
        · rcases ih true h' with h'' | h''
          · exact Or.inl (List.mem_cons_of_mem c h'')
          · exact Or.inr h''
    · simp only [Bool.not_eq_true] at hc
      simp only [hc, Bool.false_eq_true, if_false] at h
      rcases List.mem_cons.mp h with h' | h'
      · exact Or.inl (h' ▸ List.mem_cons_self c rest)
      · rcases ih false h' with h'' | h''
        · exact Or.inl (List.mem_cons_of_mem c h'')
        · exact Or.inr h''

theorem collapseAux_id (l : List Nat) :
    (hasDouble l = false → collapseAux false l = l) ∧
      ((l.head?.getD 0 == underscoreCode) = false → hasDouble l = false →
        collapseAux true l = l) := by
  induction l with
  | nil => exact ⟨fun _ => rfl, fun _ _ => rfl⟩
  | cons c rest ih =>
    constructor
    · intro hnd
      rw [hasDouble_cons] at hnd
      have h1 : (c == underscoreCode && rest.head?.getD 0 == underscoreCode) = false := by
        cases hca : (c == underscoreCode && rest.head?.getD 0 == underscoreCode) with
        | false => rfl
        | true => rw [hca] at hnd; simp at hnd
      have h2 : hasDouble rest = false := by
        cases hcb : hasDouble rest with
        | false => rfl
        | true => rw [hcb] at hnd; simp at hnd
      rw [collapseAux_cons]
      by_cases hc : (c == underscoreCode) = true
      · rw [hc] at h1
        simp only [Bool.true_and] at h1
        have hbeq : c = underscoreCode := by simpa using hc
        simp only [hc, if_true, if_false, Bool.false_eq_true]
        rw [ih.2 h1 h2, hbeq]
      · simp only [Bool.not_eq_true] at hc
        simp only [hc, Bool.false_eq_true, if_false]
        rw [ih.1 h2]
    · intro hhd hnd
      rw [collapseAux_cons]
      simp only [List.head?_cons, Option.getD_some] at hhd
      simp only [hhd, Bool.false_eq_true, if_false]
      rw [hasDouble_cons] at hnd
      have h2 : hasDouble rest = false := by
        cases hcb : hasDouble rest with
        | false => rfl
        | true => rw [hcb] at hnd; simp at hnd
      rw [ih.1 h2]

theorem strip_cons (c : Nat) (rest : List Nat) :
    stripTrailingUnderscores (c :: rest) =
      (if c == underscoreCode && (stripTrailingUnderscores rest).isEmpty then []
       else c :: stripTrailingUnderscores rest) := rfl

theorem head_strip (l : List Nat)
    (h : ((stripTrailingUnderscores l).head?.getD 0 == underscoreCode) = true) :
    (l.head?.getD 0 == underscoreCode) = true := by
  cases l with
  | nil => simpa [stripTrailingUnderscores, underscoreCode] using h
  | cons c rest =>
    rw [strip_cons] at h
    by_cases hc : (c == underscoreCode && (stripTrailingUnderscores rest).isEmpty) = true
    · simp only [hc, if_true] at h
      simpa [underscoreCode] using h
    · simp only [Bool.not_eq_true] at hc
      simp only [hc, Bool.false_eq_true, if_false] at h
      simpa using h

theorem hasDouble_strip (l : List Nat) (h : hasDouble l = false) :
    hasDouble (stripTrailingUnderscores l) = false := by
  induction l with
  | nil => rfl
  | cons c rest ih =>
    rw [hasDouble_cons] at h
    have h1 : (c == underscoreCode && rest.head?.getD 0 == underscoreCode) = false := by
      cases hca : (c == underscoreCode && rest.head?.getD 0 == underscoreCode) with
      | false => rfl
      | true => rw [hca] at h; simp at h
    have h2 : hasDouble rest = false := by
      cases hcb : hasDouble rest with
      | false => rfl
      | true => rw [hcb] at h; simp at h
    rw [strip_cons]
    by_cases hc : (c == underscoreCode && (stripTrailingUnderscores rest).isEmpty) = true
    · simp only [hc, if_true]; rfl
    · simp only [Bool.not_eq_true] at hc
      simp only [hc, Bool.false_eq_true, if_false]
      rw [hasDouble_cons, ih h2]
      have h3 : (c == underscoreCode &&
          (stripTrailingUnderscores rest).head?.getD 0 == underscoreCode) = false := by
        cases hsh : ((stripTrailingUnderscores rest).head?.getD 0 == underscoreCode) with
        | false => simp [hsh]
        | true =>
          rw [head_strip rest hsh] at h1
          simp only [Bool.and_true] at h1
          simp [h1]
      rw [h3]
      simp

theorem getLast_strip (l : List Nat) :
    (stripTrailingUnderscores l).getLast? ≠ some underscoreCode := by
  induction l with
  | nil => simp [stripTrailingUnderscores]
  | cons c rest ih =>
    rw [strip_cons]
    by_cases hc : (c == underscoreCode && (stripTrailingUnderscores rest).isEmpty) = true
    · simp [hc]
    · simp only [Bool.not_eq_true] at hc
      simp only [hc, Bool.false_eq_true, if_false]
      cases hs : stripTrailingUnderscores rest with
      | nil =>
        rw [hs] at hc
        simp only [List.isEmpty_nil, Bool.and_true] at hc
        simp only [List.getLast?_singleton]
        intro hcon
        rw [Option.some_inj] at hcon
        rw [hcon] at hc
        simp at hc
      | cons d t =>
        rw [List.getLast?_cons_cons]
        rw [hs] at ih
        exact ih

theorem strip_id (l : List Nat) (h : l.getLast? ≠ some underscoreCode) :
    stripTrailingUnderscores l = l := by
  induction l with
  | nil => rfl
  | cons c rest ih =>
    rw [strip_cons]
    cases hr : rest with
    | nil =>
      subst hr
      simp only [List.getLast?_singleton] at h
      have hc : (c == underscoreCode) = false := by
        cases hcc : (c == underscoreCode) with
        | false => rfl
        | true =>
          have : c = underscoreCode := by simpa using hcc
          exact absurd (by rw [this]) h
      simp [stripTrailingUnderscores, hc]
    | cons d t =>
      rw [← hr]
      have hrl : rest.getLast? ≠ some underscoreCode := by
        rw [hr] at h ⊢
        rw [List.getLast?_cons_cons] at h
        exact h
      rw [ih hrl]
      have hne : rest.isEmpty = false := by rw [hr]; rfl
      rw [hne]
      simp

theorem mem_strip {x : Nat} {l : List Nat} (h : x ∈ stripTrailingUnderscores l) : x ∈ l := by
  induction l with
  | nil => simpa [stripTrailingUnderscores] using h
  | cons c rest ih =>
    rw [strip_cons] at h
    by_cases hc : (c == underscoreCode && (stripTrailingUnderscores rest).isEmpty) = true
    · simp only [hc, if_true] at h
      cases h
    · simp only [Bool.not_eq_true] at hc
      simp only [hc, Bool.false_eq_true, if_false] at h
      rcases List.mem_cons.mp h with h' | h'
      · exact h' ▸ List.mem_cons_self c rest
      · exact List.mem_cons_of_mem c (ih h')

theorem titleChar_underscore (b : Bool) (c : Nat) :
    titleChar b c = underscoreCode ↔ c = underscoreCode := by
  unfold titleChar toUpperCode toLowerCode isCasedCode underscoreCode
  split_ifs <;> simp_all <;> omega

theorem titleChar_word (b : Bool) (c : Nat) :
    isWordCode (titleChar b c) = isWordCode c := by
  unfold titleChar toUpperCode toLowerCode isCasedCode isWordCode
  split_ifs <;> simp_all <;> omega

theorem titleChar_beq_underscore (b : Bool) (c : Nat) :
    (titleChar b c == underscoreCode) = (c == underscoreCode) := by
  rw [Bool.eq_iff_iff]
  simp only [beq_iff_eq]
  exact titleChar_underscore b c

theorem head_pyTitleAux (b : Bool) (l : List Nat) :
    ((pyTitleAux b l).head?.getD 0 == underscoreCode) = (l.head?.getD 0 == underscoreCode) := by
  cases l with
  | nil => rfl
  | cons c rest =>
    simp only [pyTitleAux, List.head?_cons, Option.getD_some]
    exact titleChar_beq_underscore b c

theorem hasDouble_pyTitleAux (l : List Nat) :
    ∀ b : Bool, hasDouble (pyTitleAux b l) = hasDouble l := by
  induction l with
  | nil => intro b; rfl
  | cons c rest ih =>
    intro b
    simp only [pyTitleAux]
    rw [hasDouble_cons, hasDouble_cons, ih (isCasedCode c), head_pyTitleAux,
      titleChar_beq_underscore]

theorem getLast_pyTitleAux (l : List Nat) :
    ∀ b : Bool, ((pyTitleAux b l).getLast? = some underscoreCode) ↔
      (l.getLast? = some underscoreCode) := by
  induction l with
  | nil => intro b; simp [pyTitleAux]
  | cons c rest ih =>
    intro b
    cases rest with
    | nil =>
      simp only [pyTitleAux, List.getLast?_singleton, Option.some_inj]
      exact titleChar_underscore b c
    | cons d t =>
      have hshape : pyTitleAux (isCasedCode c) (d :: t) =
          titleChar (isCasedCode c) d :: pyTitleAux (isCasedCode d) t := rfl
      simp only [pyTitleAux]
      rw [List.getLast?_cons_cons, List.getLast?_cons_cons, ← hshape]
      exact ih (isCasedCode c)

theorem word_pyTitleAux {l : List Nat} (h : ∀ x ∈ l, isWordCode x = true) :
    ∀ b : Bool, ∀ x ∈ pyTitleAux b l, isWordCode x = true := by
  induction l with
  | nil => intro b x hx; cases hx
  | cons c rest ih =>
    intro b x hx
    simp only [pyTitleAux] at hx
    rcases List.mem_cons.mp hx with h' | h'
    · rw [h', titleChar_word]
      exact h c (List.mem_cons_self c rest)
    · exact ih (fun y hy => h y (List.mem_cons_of_mem c hy)) (isCasedCode c) x h'

theorem replaceRunsAux_id (p : Nat → Bool) (r : Nat) (l : List Nat)
    (h : ∀ x ∈ l, p x = false) : ∀ b : Bool, replaceRunsAux p r b l = l := by
  induction l with
  | nil => intro b; rfl
  | cons c rest ih =>
    intro b
    have hc : p c = false := h c (List.mem_cons_self c rest)
    simp only [replaceRunsAux, hc, Bool.false_eq_true, if_false]
    rw [ih (fun y hy => h y (List.mem_cons_of_mem c hy)) false]

theorem word_not_spaceHyphen {c : Nat} (h : isWordCode c = true) :
    isSpaceHyphenCode c = false := by
  unfold isWordCode at h
  unfold isSpaceHyphenCode
  simp only [Bool.or_eq_true, Bool.and_eq_true, decide_eq_true_eq, beq_iff_eq] at h
  simp only [Bool.or_eq_false_iff, beq_eq_false_iff_ne]
  omega

theorem word_normalizeTakeName (l : List Nat) :
    ∀ x ∈ normalizeTakeName l, isWordCode x = true := by
  intro x hx
  unfold normalizeTakeName at hx
  have h1 := mem_strip hx
  rw [collapseUnderscores_eq_aux] at h1
  rcases mem_collapseAux false h1 with h2 | h2
  · unfold removeNonWord at h2
    exact (List.mem_filter.mp h2).2
  · rw [h2]; rfl

theorem hasDouble_normalizeTakeName (l : List Nat) :
    hasDouble (normalizeTakeName l) = false := by
  unfold normalizeTakeName
  apply hasDouble_strip
  rw [collapseUnderscores_eq_aux]
  exact hasDouble_collapseAux _ false

theorem getLast_normalizeTakeName (l : List Nat) :
    (normalizeTakeName l).getLast? ≠ some underscoreCode := by
  unfold normalizeTakeName
  exact getLast_strip _

theorem renormalize_eq_retitle (x : List Nat) :
    normalizeTakeName (normalizeTakeName x) = pyTitle (normalizeTakeName x) := by
  have hw := word_normalizeTakeName x
  have hd := hasDouble_normalizeTakeName x
  have hl := getLast_normalizeTakeName x
  generalize hgen : normalizeTakeName x = y at hw hd hl
  have hwz : ∀ c ∈ pyTitle y, isWordCode c = true := word_pyTitleAux hw false
  have hdz : hasDouble (pyTitle y) = false := by
    rw [pyTitle, hasDouble_pyTitleAux]; exact hd
  have hlz : (pyTitle y).getLast? ≠ some underscoreCode := fun hcon =>
    hl ((getLast_pyTitleAux y false).mp hcon)
  show stripTrailingUnderscores
    (collapseUnderscores (removeNonWord (subSpaceHyphen (pyTitle y)))) = pyTitle y
  have h2 : subSpaceHyphen (pyTitle y) = pyTitle y := by
    unfold subSpaceHyphen
    exact replaceRunsAux_id _ _ _ (fun c hc => word_not_spaceHyphen (hwz c hc)) false
  have h3 : removeNonWord (pyTitle y) = pyTitle y := by
    unfold removeNonWord
    exact List.filter_eq_self.mpr hwz
  have h4 : collapseUnderscores (pyTitle y) = pyTitle y := by
    rw [collapseUnderscores_eq_aux]
    exact (collapseAux_id (pyTitle y)).1 hdz
  have h5 : stripTrailingUnderscores (pyTitle y) = pyTitle y := strip_id (pyTitle y) hlz
  rw [h2, h3, h4, h5]

theorem lexLeB_cons (x y : Nat) (xs ys : List Nat) :
    lexLeB (x :: xs) (y :: ys) =
      (if x < y then true else if y < x then false else lexLeB xs ys) := rfl

theorem lexLe_total (a b : List Nat) : lexLe a b ∨ lexLe b a := by
  unfold lexLe
  induction a generalizing b with
  | nil => left; rfl
  | cons x xs ih =>
    cases b with
    | nil => right; rfl
    | cons y ys =>
      rw [lexLeB_cons, lexLeB_cons]
      rcases Nat.lt_trichotomy x y with h | h | h
      · left; simp [h]
      · subst h
        rcases ih ys with h' | h'
        · left; simp [Nat.lt_irrefl, h']
        · right; simp [Nat.lt_irrefl, h']
      · right; simp [h]

theorem lexLe_trans (a b c : List Nat) (hab : lexLe a b) (hbc : lexLe b c) : lexLe a c := by
  unfold lexLe at *
  induction a generalizing b c with
  | nil => rfl
  | cons x xs ih =>
    cases b with
    | nil => simp [lexLeB] at hab
    | cons y ys =>
      cases c with
      | nil => simp [lexLeB] at hbc
      | cons z zs =>
        rw [lexLeB_cons] at hab hbc ⊢
        rcases Nat.lt_trichotomy x y with h1 | h1 | h1
        · rcases Nat.lt_trichotomy y z with h2 | h2 | h2
          · have : x < z := Nat.lt_trans h1 h2
            simp [this]
          · subst h2; simp [h1]
          · rw [if_neg (by omega), if_pos h2] at hbc
            cases hbc
        · subst h1
          rcases Nat.lt_trichotomy x z with h2 | h2 | h2
          · simp [h2]
          · subst h2
            rw [if_neg (Nat.lt_irrefl x), if_neg (Nat.lt_irrefl x)] at hab hbc ⊢
            exact ih ys zs hab hbc
          · rw [if_neg (by omega), if_pos h2] at hbc
            cases hbc
        · rw [if_neg (by omega), if_pos h1] at hab
          cases hab

instance : IsTotal (List Nat) lexLe := ⟨lexLe_total⟩

instance : IsTrans (List Nat) lexLe := ⟨fun a b c => lexLe_trans a b c⟩

theorem idxOf?_mem {α : Type} [DecidableEq α] {a : α} {l : List α} (h : a ∈ l) :
    ∃ i, idxOf? a l = some i ∧ l.get? i = some a := by
  induction l with
  | nil => cases h
  | cons b t ih =>
    by_cases hb : b = a
    · exact ⟨0, by simp [idxOf?, hb], by simp [hb]⟩
    · have ha : a ∈ t := by
        rcases List.mem_cons.mp h with h' | h'
        · exact absurd h'.symm hb
        · exact h'
      rcases ih ha with ⟨i, h1, h2⟩
      exact ⟨i + 1, by simp [idxOf?, hb, h1], by simpa using h2⟩

theorem idxOf?_eq_none {α : Type} [DecidableEq α] {a : α} {l : List α} (h : a ∉ l) :
    idxOf? a l = none := by
  induction l with
  | nil => rfl
  | cons b t ih =>
    have hb : ¬b = a := fun hcon => h (hcon ▸ List.mem_cons_self b t)
    have ht : a ∉ t := fun hcon => h (List.mem_cons_of_mem b hcon)
    simp [idxOf?, hb, ih ht]

theorem find_self {α : Type} [DecidableEq α] {a : α} {l : List α} (h : a ∈ l) :
    l.find? (fun x => decide (x = a)) = some a := by
  induction l with
  | nil => cases h
  | cons b t ih =>
    by_cases hb : b = a
    · subst hb
      exact List.find?_cons_of_pos t (by simp)
    · rw [List.find?_cons_of_neg t (by simp [hb])]
      rcases List.mem_cons.mp h with h' | h'
      · exact absurd h'.symm hb
      · exact ih h'

/-- Claim C1 (code_bug exhibit): the raw input `"  ---  "` normalizes to the
empty string, yet `add_take_toolButton_clicked` — whose emptiness guard
tests the raw text, not the conditioned one — inserts an empty-string entry
into the take list `["Main"]`, sorts it to the front, and selects it,
instead of rejecting the input. -/
theorem c1_code_adds_empty_take :
    normalizeTakeName (strToCodes "  ---  ") = [] ∧
    add_take_toolButton_clicked (strToCodes "  ---  ") ⟨[mainName], some 0⟩ =
      ⟨[[], mainName], some 0⟩ := by decide

/-- Claim C4 (counterexample): the conditioning is not idempotent.  For the
input `"a.b"` the first pass title-cases to `"A.B"` and then deletes the
dot, yielding `"AB"`; a second pass title-cases `"AB"` to `"Ab"`. -/
theorem c4_counterexample :
    normalizeTakeName (normalizeTakeName (strToCodes "a.b")) ≠
      normalizeTakeName (strToCodes "a.b") := by decide

/-- Claim C4 (amended): renormalizing equals re-title-casing the normalized
name — the underscore and character-set passes (steps 2-5) all fix the
output of a first normalization, so only `str.title` can change it. -/
theorem c4_amended (x : List Nat) :
    normalizeTakeName (normalizeTakeName x) = pyTitle (normalizeTakeName x) :=
  renormalize_eq_retitle x

/-- Claim C5 (counterexample): the normalized output can start with an
underscore: `" a"` title-cases to `" A"` and the leading space becomes a
leading underscore that no later pass removes, giving the non-empty
output `"_A"`. -/
theorem c5_counterexample :
    normalizeTakeName (strToCodes " a") ≠ [] ∧
    (normalizeTakeName (strToCodes " a")).head? = some underscoreCode := by decide

/-- Claim C5 (amended): every normalized take name contains no two
consecutive underscores and does not end in an underscore (a LEADING
underscore, however, is possible). -/
theorem c5_amended (x : List Nat) :
    hasDouble (normalizeTakeName x) = false ∧
    (normalizeTakeName x).getLast? ≠ some underscoreCode :=
  ⟨hasDouble_normalizeTakeName x, getLast_normalizeTakeName x⟩

/-- Claim C6 (counterexample): with take list `["Alt", "Main"]`, current
item 0 (`"Alt"`), raw input `"main"` normalizes to `"Main"` which is
already in the list at index 1 — the operation inserts nothing but ALSO
leaves the selection at index 0: it does not move the selection to the
existing matching entry. -/
theorem c6_counterexample :
    normalizeTakeName (strToCodes "main") = mainName ∧
    mainName ∈ [altName, mainName] ∧
    (add_take_toolButton_clicked (strToCodes "main")
      ⟨[altName, mainName], some 0⟩).current = some 0 ∧
    idxOf? mainName [altName, mainName] = some 1 := by decide

/-- Claim C6 (amended): when the normalized take name is already in the
take list the whole operation is a no-op — nothing is inserted AND the
selection is left untouched (the existing entry is not selected). -/
theorem c6_amended (raw : List Nat) (s : TakesState)
    (h : normalizeTakeName raw ∈ s.takes) :
    add_take_toolButton_clicked raw s = s := by
  by_cases hraw : raw = []
  · simp [add_take_toolButton_clicked, hraw]
  · simp only [add_take_toolButton_clicked]
    rw [if_neg hraw, if_pos h]

/-- Witness for the amended C6 theorem at raw input `"main"` against the
take list `["Alt", "Main"]`. -/
theorem c6_amended_witness :
    normalizeTakeName (strToCodes "main") ∈ [altName, mainName] ∧
    add_take_toolButton_clicked (strToCodes "main") ⟨[altName, mainName], some 0⟩ =
      ⟨[altName, mainName], some 0⟩ :=
  ⟨by decide, c6_amended (strToCodes "main") ⟨[altName, mainName], some 0⟩ (by decide)⟩

/-- Claim C9: a raw input whose normalized name is non-empty and not yet in
the take list is appended (the new list is a permutation of the old plus
the new name), the list ends up sorted by the `sortItems` order, and the
newly inserted entry becomes the current selection. -/
theorem c9_add_new_take (raw : List Nat) (s : TakesState)
    (h1 : normalizeTakeName raw ≠ [])
    (h2 : normalizeTakeName raw ∉ s.takes) :
    (add_take_toolButton_clicked raw s).takes.Perm
      (s.takes ++ [normalizeTakeName raw]) ∧
    List.Sorted lexLe (add_take_toolButton_clicked raw s).takes ∧
    ∃ i, (add_take_toolButton_clicked raw s).current = some i ∧
      (add_take_toolButton_clicked raw s).takes.get? i =
        some (normalizeTakeName raw) := by
  have hraw : raw ≠ [] := by
    intro hcon
    rw [hcon] at h1
    exact h1 rfl
  have hmem : normalizeTakeName raw ∈
      List.insertionSort lexLe (s.takes ++ [normalizeTakeName raw]) :=
    (List.perm_insertionSort lexLe _).mem_iff.mpr
      (List.mem_append_right _ (List.mem_singleton_self _))
  rcases idxOf?_mem hmem with ⟨i, hi, hget⟩
  have hE : add_take_toolButton_clicked raw s =
      ⟨List.insertionSort lexLe (s.takes ++ [normalizeTakeName raw]), some i⟩ := by
    simp only [add_take_toolButton_clicked]
    rw [if_neg hraw, if_neg h2, hi]
  rw [hE]
  exact ⟨List.perm_insertionSort lexLe _, List.sorted_insertionSort lexLe _, i, rfl, hget⟩

/-- Witness for the C9 theorem at raw input `"foo bar"` against the empty
take list: the entry `"Foo_Bar"` is inserted and selected. -/
theorem c9_witness :
    normalizeTakeName (strToCodes "foo bar") = strToCodes "Foo_Bar" ∧
    normalizeTakeName (strToCodes "foo bar") ≠ [] ∧
    normalizeTakeName (strToCodes "foo bar") ∉ (⟨[], none⟩ : TakesState).takes ∧
    ((add_take_toolButton_clicked (strToCodes "foo bar") ⟨[], none⟩).takes.Perm
      ((⟨[], none⟩ : TakesState).takes ++ [normalizeTakeName (strToCodes "foo bar")]) ∧
     List.Sorted lexLe (add_take_toolButton_clicked (strToCodes "foo bar") ⟨[], none⟩).takes ∧
     ∃ i, (add_take_toolButton_clicked (strToCodes "foo bar") ⟨[], none⟩).current = some i ∧
       (add_take_toolButton_clicked (strToCodes "foo bar") ⟨[], none⟩).takes.get? i =
         some (normalizeTakeName (strToCodes "foo bar"))) :=
  ⟨by decide, by decide, by decide,
    c9_add_new_take (strToCodes "foo bar") ⟨[], none⟩ (by decide) (by decide)⟩

theorem set_status_fields (s : DialogState) (st : Status) :
    (set_status s st).db = s.db ∧
    (set_status s st).tasksTree = s.tasksTree ∧
    (set_status s st).currentTask = s.currentTask ∧
    (set_status s st).takesList = s.takesList ∧
    (set_status s st).currentTakeIndex = s.currentTakeIndex ∧
    (set_status s st).versionsCache = s.versionsCache ∧
    (set_status s st).currentVersionRow = s.currentVersionRow ∧
    (set_status s st).statusesCombo = s.statusesCombo ∧
    (set_status s st).publishedOnly = s.publishedOnly ∧
    (set_status s st).versionCount = s.versionCount := by
  unfold set_status
  cases idxOf? st.name s.statusesCombo <;> simp

theorem set_status_shows (s : DialogState) (st : Status)
    (h : st.name ∈ s.statusesCombo) :
    shownStatusName (set_status s st) = some st.name := by
  rcases idxOf?_mem h with ⟨i, hi, hg⟩
  unfold set_status
  rw [hi]
  unfold shownStatusName
  simpa using hg

theorem update_prev_shape (s : DialogState) :
    ∃ vc vr si, update_previous_versions_tableWidget s =
      { s with versionsCache := vc, currentVersionRow := vr, statusIndex := si } := by
  unfold update_previous_versions_tableWidget set_status
  cases s.currentTask with
  | none => exact ⟨[], none, s.statusIndex, rfl⟩
  | some task =>
    simp only []
    by_cases hk : currentTakeNameD s = []
    · rw [if_pos hk]
      exact ⟨[], none, s.statusIndex, rfl⟩
    · rw [if_neg hk]
      cases (listVersions s.db task (currentTakeNameD s) s.publishedOnly
          s.versionCount).getLast? with
      | none => exact ⟨_, none, s.statusIndex, rfl⟩
      | some v =>
        simp only []
        cases idxOf? v.status.name s.statusesCombo with
        | none => exact ⟨_, none, s.statusIndex, rfl⟩
        | some i => exact ⟨_, none, some i, rfl⟩

theorem update_prev_fields (s : DialogState) :
    (update_previous_versions_tableWidget s).db = s.db ∧
    (update_previous_versions_tableWidget s).tasksTree = s.tasksTree ∧
    (update_previous_versions_tableWidget s).currentTask = s.currentTask ∧
    (update_previous_versions_tableWidget s).takesList = s.takesList ∧
    (update_previous_versions_tableWidget s).currentTakeIndex = s.currentTakeIndex ∧
    (update_previous_versions_tableWidget s).statusesCombo = s.statusesCombo ∧
    (update_previous_versions_tableWidget s).publishedOnly = s.publishedOnly ∧
    (update_previous_versions_tableWidget s).versionCount = s.versionCount := by
  rcases update_prev_shape s with ⟨vc, vr, si, h⟩
  rw [h]
  exact ⟨rfl, rfl, rfl, rfl, rfl, rfl, rfl, rfl⟩

theorem takes_changed_shape (s : DialogState) :
    ∃ vc vr si, takes_listWidget_changed s =
      { s with versionsCache := vc, currentVersionRow := vr, statusIndex := si } := by
  rcases update_prev_shape s with ⟨vc, vr, si, h⟩
  unfold takes_listWidget_changed set_status
  rw [h]
  cases s.currentTask with
  | none => exact ⟨vc, vr, si, rfl⟩
  | some task =>
    simp only []
    cases (List.insertionSort verDesc
        (taskTakeQuery s.db task (currentTakeNameD s))).head? with
    | none => exact ⟨vc, vr, si, rfl⟩
    | some v =>
      simp only []
      cases idxOf? v.status.name s.statusesCombo with
      | none => exact ⟨vc, vr, si, rfl⟩
      | some i => exact ⟨vc, vr, some i, rfl⟩

theorem takes_changed_fields (s : DialogState) :
    (takes_listWidget_changed s).db = s.db ∧
    (takes_listWidget_changed s).tasksTree = s.tasksTree ∧
    (takes_listWidget_changed s).currentTask = s.currentTask ∧
    (takes_listWidget_changed s).takesList = s.takesList ∧
    (takes_listWidget_changed s).currentTakeIndex = s.currentTakeIndex ∧
    (takes_listWidget_changed s).statusesCombo = s.statusesCombo ∧
    (takes_listWidget_changed s).publishedOnly = s.publishedOnly ∧
    (takes_listWidget_changed s).versionCount = s.versionCount := by
  rcases takes_changed_shape s with ⟨vc, vr, si, h⟩
  rw [h]
  exact ⟨rfl, rfl, rfl, rfl, rfl, rfl, rfl, rfl⟩

theorem update_prev_cache (s : DialogState) (task : PTask)
    (ht : s.currentTask = some task) (hk : currentTakeNameD s ≠ []) :
    (update_previous_versions_tableWidget s).versionsCache =
      listVersions s.db task (currentTakeNameD s) s.publishedOnly s.versionCount ∧
    (update_previous_versions_tableWidget s).currentVersionRow = none := by
  unfold update_previous_versions_tableWidget
  rw [ht]
  simp only []
  rw [if_neg hk]
  cases (listVersions s.db task (currentTakeNameD s) s.publishedOnly
      s.versionCount).getLast? with
  | none => exact ⟨rfl, rfl⟩
  | some v =>
    simp only []
    constructor
    · rw [(set_status_fields _ _).2.2.2.2.2.1]
    · rw [(set_status_fields _ _).2.2.2.2.2.2.1]

theorem takes_changed_cache (s : DialogState) (task : PTask)
    (ht : s.currentTask = some task) (hk : currentTakeNameD s ≠ []) :
    (takes_listWidget_changed s).versionsCache =
      listVersions s.db task (currentTakeNameD s) s.publishedOnly s.versionCount ∧
    (takes_listWidget_changed s).currentVersionRow = none := by
  have hupd := update_prev_cache s task ht hk
  unfold takes_listWidget_changed
  rw [ht]
  simp only []
  cases (List.insertionSort verDesc
      (taskTakeQuery s.db task (currentTakeNameD s))).head? with
  | none => exact hupd
  | some v =>
    simp only []
    constructor
    · rw [(set_status_fields _ _).2.2.2.2.2.1]
      exact hupd.1
    · rw [(set_status_fields _ _).2.2.2.2.2.2.1]
      exact hupd.2

theorem head_sort_desc_max (q : List Version) (v : Version) (hv : v ∈ q)
    (hmax : ∀ w ∈ q, w ≠ v → w.version_number < v.version_number) :
    (List.insertionSort verDesc q).head? = some v := by
  have hperm := List.perm_insertionSort verDesc q
  have hsort := List.sorted_insertionSort verDesc q
  have hvmem : v ∈ List.insertionSort verDesc q := hperm.mem_iff.mpr hv
  cases hl : List.insertionSort verDesc q with
  | nil =>
    rw [hl] at hvmem
    cases hvmem
  | cons a t =>
    rw [hl] at hvmem hsort hperm
    by_cases hav : a = v
    · rw [hav]
      rfl
    · have hamem : a ∈ q := hperm.subset (List.mem_cons_self a t)
      have h1 : a.version_number < v.version_number := hmax a hamem hav
      have hvt : v ∈ t := by
        rcases List.mem_cons.mp hvmem with h' | h'
        · exact absurd h'.symm hav
        · exact h'
      have h2 : verDesc a v := (List.sorted_cons.mp hsort).1 v hvt
      unfold verDesc at h2
      omega

theorem takes_changed_status (s : DialogState) (task : PTask) (v : Version)
    (ht : s.currentTask = some task)
    (hh : (List.insertionSort verDesc
      (taskTakeQuery s.db task (currentTakeNameD s))).head? = some v)
    (hc : v.status.name ∈ s.statusesCombo) :
    shownStatusName (takes_listWidget_changed s) = some v.status.name := by
  unfold takes_listWidget_changed
  rw [ht]
  simp only []
  rw [hh]
  simp only []
  apply set_status_shows
  rw [(update_prev_fields s).2.2.2.2.2.1]
  exact hc

/-- Claim C2 (counterexample): state `c2s` lists published-only over a
database holding version 1 (published, "StatusA") and version 2
(unpublished, "StatusB").  The freshly filtered, capped list is `[c2v1]`,
whose highest element carries "StatusA" — but after the take-selection
change the combo box shows "StatusB", because `takes_listWidget_changed`
re-queries WITHOUT the published filter and overrides the status set from
the filtered list. -/
theorem c2_counterexample :
    shownStatusName (takes_listWidget_changed c2s) = some stB.name ∧
    (listVersions c2s.db tk1 mainName true 5).getLast?.map
      (fun v => v.status.name) = some stA.name ∧
    stA.name ≠ stB.name := by decide

/-- Claim C2 (amended): after a take-selection change the shown status is
the status of the highest-version-number version among ALL versions of the
current (task, take) pair — ignoring the published_only filter and the
count cap — whenever that status name is present in the combo box; and
when the pair has no versions at all, the combo box is left untouched
(neither the table rebuild nor the re-query changes the status index). -/
theorem c2_amended (s : DialogState) (task : PTask)
    (ht : s.currentTask = some task) :
    (∀ v : Version,
      v ∈ taskTakeQuery s.db task (currentTakeNameD s) →
      (∀ w ∈ taskTakeQuery s.db task (currentTakeNameD s),
        w ≠ v → w.version_number < v.version_number) →
      v.status.name ∈ s.statusesCombo →
      shownStatusName (takes_listWidget_changed s) = some v.status.name) ∧
    (taskTakeQuery s.db task (currentTakeNameD s) = [] →
      (takes_listWidget_changed s).statusIndex = s.statusIndex) := by
  constructor
  · intro v hv hmax hc
    exact takes_changed_status s task v ht (head_sort_desc_max _ v hv hmax) hc
  · intro hq
    have hlv : listVersions s.db task (currentTakeNameD s) s.publishedOnly
        s.versionCount = [] := by
      unfold listVersions
      rw [hq]
      cases s.publishedOnly <;> simp
    have hupd : (update_previous_versions_tableWidget s).statusIndex =
        s.statusIndex := by
      unfold update_previous_versions_tableWidget
      rw [ht]
      simp only []
      by_cases hk : currentTakeNameD s = []
      · rw [if_pos hk]
      · rw [if_neg hk, hlv]
        rfl
    unfold takes_listWidget_changed
    rw [ht]
    simp only []
    have hins : (List.insertionSort verDesc
        (taskTakeQuery s.db task (currentTakeNameD s))).head? = none := by
      rw [hq]
      rfl
    rw [hins]
    exact hupd

/-- Witness for the amended C2 theorem: the override conjunct at the
fixture state `c2s` with the overall-highest version `c2v2`, and the
no-versions conjunct at the same state with an emptied database. -/
theorem c2_amended_witness :
    c2s.currentTask = some tk1 ∧
    c2v2 ∈ taskTakeQuery c2s.db tk1 (currentTakeNameD c2s) ∧
    (∀ w ∈ taskTakeQuery c2s.db tk1 (currentTakeNameD c2s),
      w ≠ c2v2 → w.version_number < c2v2.version_number) ∧
    c2v2.status.name ∈ c2s.statusesCombo ∧
    shownStatusName (takes_listWidget_changed c2s) = some c2v2.status.name ∧
    taskTakeQuery ({ c2s with db := [] } : DialogState).db tk1
      (currentTakeNameD { c2s with db := [] }) = [] ∧
    (takes_listWidget_changed { c2s with db := [] }).statusIndex =
      ({ c2s with db := [] } : DialogState).statusIndex :=
  ⟨by decide, by decide, by decide, by decide,
    (c2_amended c2s tk1 (by decide)).1 c2v2 (by decide) (by decide) (by decide),
    by decide,
    (c2_amended { c2s with db := [] } tk1 (by decide)).2 (by decide)⟩

theorem currentTakeNameD_congr (s s' : DialogState)
    (h1 : s.takesList = s'.takesList)
    (h2 : s.currentTakeIndex = s'.currentTakeIndex) :
    currentTakeNameD s = currentTakeNameD s' := by
  unfold currentTakeNameD
  rw [h1, h2]

theorem tasks_changed_props (s : DialogState) (task : PTask)
    (ht : s.currentTask = some task) :
    (tasks_treeWidget_changed s).takesList = rebuiltTakes s.db task ∧
    (tasks_treeWidget_changed s).currentTask = some task ∧
    (tasks_treeWidget_changed s).db = s.db ∧
    (tasks_treeWidget_changed s).publishedOnly = s.publishedOnly ∧
    (tasks_treeWidget_changed s).versionCount = s.versionCount ∧
    (tasks_treeWidget_changed s).tasksTree = s.tasksTree ∧
    (tasks_treeWidget_changed s).statusesCombo = s.statusesCombo := by
  unfold tasks_treeWidget_changed
  rw [ht]
  simp only []
  have hf := takes_changed_fields
    { s with
      currentTask := some task
      takesList := rebuiltTakes s.db task
      currentTakeIndex := some 0 }
  exact ⟨hf.2.2.2.1, hf.2.2.1, hf.1, hf.2.2.2.2.2.2.1,
    hf.2.2.2.2.2.2.2, hf.2.1, hf.2.2.2.2.2.1⟩

/-- Claim C3 (counterexample): a reference version whose task is in the
tree and whose project is active, but whose take name ("Alt") is absent
from the rebuilt take list (the database is empty, so the list holds only
the default "Main"), makes `restore_ui` raise an uncaught `IndexError` at
`findItems(...)[0]` instead of aborting silently. -/
theorem c3_counterexample :
    c3v.task.project.active = true ∧
    c3v.task ∈ c3s.tasksTree ∧
    c3v.take_name ∉ rebuiltTakes c3s.db c3v.task ∧
    restore_ui c3s (some c3v) = Except.error "IndexError: list index out of range" :=
  ⟨by decide, by decide, by decide, by rfl⟩

/-- Claim C3 (amended): `restore_ui` aborts silently (returns the state
unchanged, raising nothing) on a null reference, on a reference whose
task's project is inactive, and on a task absent from the tree; and when
the reference's take IS present in the rebuilt take list it never raises
either (a version absent from the displayed list merely leaves no row
selected).  Only an absent take entry raises (`IndexError`). -/
theorem c3_amended (s : DialogState) (v : Version) :
    restore_ui s none = Except.ok s ∧
    (v.task.project.active = false → restore_ui s (some v) = Except.ok s) ∧
    (v.task ∉ s.tasksTree → restore_ui s (some v) = Except.ok s) ∧
    (v.take_name ∈ rebuiltTakes s.db v.task →
      (restore_ui s (some v)).isOk = true) := by
  refine ⟨rfl, ?_, ?_, ?_⟩
  · intro ha
    unfold restore_ui
    simp [ha]
  · intro hnm
    have hf : s.tasksTree.find? (fun t => decide (t = v.task)) = none :=
      List.find?_eq_none.mpr (fun x hx => by
        simp only [decide_eq_true_eq]
        intro hcon
        exact hnm (hcon ▸ hx))
    unfold restore_ui
    by_cases hact : v.task.project.active
    · simp [hact, hf]
    · have h0 : v.task.project.active = false := by simpa using hact
      simp [h0]
  · intro htake
    unfold restore_ui
    by_cases hact : v.task.project.active
    · simp only [hact, Bool.not_true, Bool.false_eq_true, if_false]
      cases hfind : s.tasksTree.find? (fun t => decide (t = v.task)) with
      | none => rfl
      | some w =>
        simp only []
        have hTL : (tasks_treeWidget_changed
            { s with currentTask := some v.task }).takesList =
            rebuiltTakes s.db v.task :=
          (tasks_changed_props { s with currentTask := some v.task } v.task rfl).1
        rw [hTL]
        rcases idxOf?_mem htake with ⟨i, hi, _⟩
        rw [hi]
        simp only []
        split <;> rfl
    · have h0 : v.task.project.active = false := by simpa using hact
      simp only [h0]
      rfl

/-- Witness for the amended C3 theorem: a reference version of the
inactive project is a silent no-op on the fixture state `c3s`. -/
theorem c3_amended_witness :
    vInactive.task.project.active = false ∧
    restore_ui c3s (some vInactive) = Except.ok c3s :=
  ⟨by decide, (c3_amended c3s vInactive).2.1 (by decide)⟩

/-- Claim C8: during restoration, a reference version whose take is present
but which is not an element of the rebuilt, capped and filtered version
list for its (task, take) — e.g. because it fell outside the limit window
or was excluded by published_only — still gets its task node and take entry
selected, but no version row is selected. -/
theorem c8_restore_outside_window (s : DialogState) (v : Version)
    (ha : v.task.project.active = true)
    (htree : v.task ∈ s.tasksTree)
    (hne : v.take_name ≠ [])
    (htake : v.take_name ∈ rebuiltTakes s.db v.task)
    (hnotin : v ∉ listVersions s.db v.task v.take_name s.publishedOnly s.versionCount) :
    ∃ sf, restore_ui s (some v) = Except.ok sf ∧
      sf.currentTask = some v.task ∧
      currentTakeNameD sf = v.take_name ∧
      sf.currentVersionRow = none := by
  have hprops := tasks_changed_props { s with currentTask := some v.task } v.task rfl
  rcases idxOf?_mem htake with ⟨i, hi, hget⟩
  have hct : ({ tasks_treeWidget_changed { s with currentTask := some v.task } with
      currentTakeIndex := some i } : DialogState).currentTask = some v.task := hprops.2.1
  have hnm : currentTakeNameD
      { tasks_treeWidget_changed { s with currentTask := some v.task } with
        currentTakeIndex := some i } = v.take_name := by
    simp only [currentTakeNameD, hprops.1]
    rw [hget]
    rfl
  have hkne : currentTakeNameD
      { tasks_treeWidget_changed { s with currentTask := some v.task } with
        currentTakeIndex := some i } ≠ [] := by
    rw [hnm]
    exact hne
  have hcache := takes_changed_cache
    { tasks_treeWidget_changed { s with currentTask := some v.task } with
      currentTakeIndex := some i } v.task hct hkne
  have hcache1 : (takes_listWidget_changed
      { tasks_treeWidget_changed { s with currentTask := some v.task } with
        currentTakeIndex := some i }).versionsCache =
      listVersions s.db v.task v.take_name s.publishedOnly s.versionCount := by
    rw [hcache.1, hnm]
    simp only []
    rw [hprops.2.2.1, hprops.2.2.2.1, hprops.2.2.2.2.1]
  have hnone : idxOf? v (takes_listWidget_changed
      { tasks_treeWidget_changed { s with currentTask := some v.task } with
        currentTakeIndex := some i }).versionsCache = none := by
    rw [hcache1]
    exact idxOf?_eq_none hnotin
  have hfields := takes_changed_fields
    { tasks_treeWidget_changed { s with currentTask := some v.task } with
      currentTakeIndex := some i }
  have hI : idxOf? v.take_name
      (tasks_treeWidget_changed { s with currentTask := some v.task }).takesList =
      some i := by
    rw [hprops.1]
    exact hi
  unfold restore_ui
  simp only [ha, Bool.not_true, Bool.false_eq_true, if_false]
  rw [find_self htree]
  simp only []
  rw [hI]
  simp only []
  split
  next heq =>
    refine ⟨_, rfl, ?_, ?_, ?_⟩
    · exact hfields.2.2.1.trans hct
    · exact (currentTakeNameD_congr _ _ hfields.2.2.2.1 hfields.2.2.2.2.1).trans hnm
    · exact hcache.2
  next j heq =>
    cases hnone.symm.trans heq

/-- Witness for the C8 theorem: restoring version 1 against the fixture
state `c8s` (five versions, limit 3, so the displayed list is versions
3-5) selects task and take but no version row. -/
theorem c8_witness :
    (exV 1).task.project.active = true ∧
    (exV 1).task ∈ c8s.tasksTree ∧
    (exV 1).take_name ≠ [] ∧
    (exV 1).take_name ∈ rebuiltTakes c8s.db (exV 1).task ∧
    (exV 1) ∉ listVersions c8s.db (exV 1).task (exV 1).take_name
      c8s.publishedOnly c8s.versionCount ∧
    ∃ sf, restore_ui c8s (some (exV 1)) = Except.ok sf ∧
      sf.currentTask = some (exV 1).task ∧
      currentTakeNameD sf = (exV 1).take_name ∧
      sf.currentVersionRow = none :=
  ⟨by decide, by decide, by decide, by decide, by decide,
    c8_restore_outside_window c8s (exV 1) (by decide) (by decide) (by decide)
      (by decide) (by decide)⟩

/-- Claim C7: the displayed version list equals the reference derivation of
spec section 4.2 (conjunctive fetch, optional published filter, descending
order, cap, reverse); with published_only set no unpublished version ever
appears; and for versions numbered 1..5 with limit 3 the result is
versions [3, 4, 5] in that ascending order. -/
theorem c7_list_versions :
    (∀ (db : List Version) (task : PTask) (take : List Nat) (po : Bool) (lim : Nat),
      listVersions db task take po lim = listVersionsSpec db task take po lim) ∧
    (∀ (db : List Version) (task : PTask) (take : List Nat) (lim : Nat) (v : Version),
      v ∈ listVersions db task take true lim → v.is_published = true) ∧
    listVersions exDb tk1 mainName false 3 = [exV 3, exV 4, exV 5] := by
  refine ⟨?_, ?_, by decide⟩
  · intro db task take po lim
    unfold listVersions listVersionsSpec taskTakeQuery
    rw [List.filter_filter]
    have hfun : (fun v => decide (v.take_name = take) && decide (v.task = task)) =
        (fun v : Version => decide (v.task = task ∧ v.take_name = take)) := by
      funext w
      rw [Bool.decide_and]
      rw [Bool.and_comm]
    rw [hfun]
    cases po with
    | false => rfl
    | true =>
      have hpub : (fun v : Version => v.is_published == true) =
          (fun v : Version => v.is_published) := by
        funext w
        simp
      rw [hpub]
  · intro db task take lim v hv
    unfold listVersions at hv
    rw [List.mem_reverse] at hv
    have hv2 := List.take_subset _ _ hv
    have hv3 := (List.perm_insertionSort verDesc _).subset hv2
    exact (List.mem_filter.mp hv3).2

/-- Witness for the published-only conjunct of the C7 theorem: version 3 of
the fixture database appears in the published-only listing and is indeed
published. -/
theorem c7_witness :
    exV 3 ∈ listVersions exDb tk1 mainName true 3 ∧ (exV 3).is_published = true :=
  ⟨by decide, c7_list_versions.2.1 exDb tk1 mainName 3 (exV 3) (by decide)⟩

/-- Claim C10: with no table row selected Qt reports row `-1`, and Python
negative indexing makes `get_previous_version` return the LAST (highest
version number) element of the cache; `None` comes back exactly when the
cache is empty. -/
theorem c10_get_previous_version (cache : List Version) :
    get_previous_version cache (-1) = cache.getLast? ∧
    (get_previous_version cache (-1) = none ↔ cache = []) := by
  have h1 : get_previous_version cache (-1) = cache.getLast? := by
    cases cache with
    | nil => rfl
    | cons c r =>
      unfold get_previous_version pyListGet?
      rw [if_neg (by omega), if_pos (by
        simp only [List.length_cons]
        push_cast
        omega)]
      have hn : ((-1 : Int) + (c :: r).length).toNat = r.length := by
        simp only [List.length_cons]
        omega
      rw [hn]
      rw [List.get?_eq_getElem?, List.getLast?_eq_getElem?]
      simp
  refine ⟨h1, ?_⟩
  rw [h1]
  exact List.getLast?_eq_none_iff
